import Mathlib

/-!
Verification of the Conway Game of Life implementation (src/conway.c)
against its natural-language specification.

The simulation core is embedded shallowly:
the `Board` struct, `getTileState` / `setTileState`, the neighbor scan and
transition branches of `handleTile`, the pending-change stack discipline of
`doTick` / `doChanges`, the `simulationLoop` driver, and the numeric-rate
parsing of `getTicksPerSecond`.  Machine `unsigned int` values are modelled
as `Nat`: on every execution the claims quantify over, the counters stay far
below 2^32, so modular wraparound never occurs and the models agree with the
C semantics.
-/

namespace Conway

/-- Cell states, from the C `enum TileState` (DEAD = 0, ALIVE = 1). -/
inductive TileState where
  | DEAD
  | ALIVE
  deriving DecidableEq, Repr

open TileState

/-- Logical board, from `struct Board`: dimensions, the row-major
`tiles` array (a C array of length `nrows * ncols`, modelled as a list),
and the running live-cell counter `nalive`. -/
structure Board where
  nrows : Nat
  ncols : Nat
  tiles : List TileState
  nalive : Nat
  deriving DecidableEq, Repr

/-- From `struct Point`. -/
structure Point where
  row : Nat
  col : Nat
  deriving DecidableEq, Repr

/-- From `struct TileChange`. -/
structure TileChange where
  point : Point
  newState : TileState
  deriving DecidableEq, Repr

/-- `getTileState`: reads `tiles[row * ncols + col]`.  An out-of-bounds
access is undefined behaviour in the C; the model returns `DEAD` there
(no claim exercises an out-of-bounds read, and the neighbor scan skips
out-of-range coordinates before reading). -/
def getTileState (b : Board) (row col : Nat) : TileState :=
  b.tiles.getD (row * b.ncols + col) DEAD

/-- `setTileState`: writes `tiles[row * ncols + col] = val` and adjusts
`nalive` incrementally with exactly the `prev`/`val` comparison chain of
the C code. -/
def setTileState (b : Board) (val : TileState) (row col : Nat) : Board :=
  { b with
    tiles := b.tiles.set (row * b.ncols + col) val
    nalive :=
      if b.tiles.getD (row * b.ncols + col) DEAD = ALIVE ∧ val = DEAD then
        b.nalive - 1
      else if b.tiles.getD (row * b.ncols + col) DEAD = DEAD ∧ val = ALIVE then
        b.nalive + 1
      else
        b.nalive }

/-- Number of `ALIVE` entries in a tile array (the quantity the spec calls
`liveCount`, obtained by scanning). -/
def countAlive (l : List TileState) : Nat :=
  l.countP (fun s => decide (s = ALIVE))

/-- The `offsets` table of `handleTile`. -/
def neighborOffsets : List (Int × Int) :=
  [(-1, -1), (-1, 0), (-1, 1), (0, -1), (0, 1), (1, -1), (1, 0), (1, 1)]

/-- The skip condition of `handleTile`'s neighbor loop:
`r < 0 || r > nrows - 1 || c < 0 || c > ncols - 1`.  The C computes
`row + offset` in machine arithmetic and compares as shown; for
`nrows, ncols ≥ 1` (the Board invariant, which holds for every board the
claims quantify over) the comparisons coincide with this Int model. -/
def outOfRange (nrows ncols : Nat) (r c : Int) : Bool :=
  decide (r < 0) || decide (r > (nrows : Int) - 1) ||
  decide (c < 0) || decide (c > (ncols : Int) - 1)

/-- The neighbor count computed by `handleTile`'s loop: of the 8 offset
coordinates, those that are in range and hold an `ALIVE` tile. -/
def numAliveNeighbors (b : Board) (row col : Nat) : Nat :=
  neighborOffsets.countP (fun o =>
    !outOfRange b.nrows b.ncols ((row : Int) + o.1) ((col : Int) + o.2) &&
    decide (getTileState b ((row : Int) + o.1).toNat ((col : Int) + o.2).toNat = ALIVE))

/-- The coordinates `handleTile`'s loop actually reads for cell
`(row, col)`: the 8 offset coordinates minus the skipped out-of-range
ones. -/
def neighborReads (nrows ncols : Nat) (row col : Nat) : List (Int × Int) :=
  (neighborOffsets.map (fun o => ((row : Int) + o.1, (col : Int) + o.2))).filter
    (fun p => !outOfRange nrows ncols p.1 p.2)

/-- The branch chain at the end of `handleTile`, as a function of the
current state and the alive-neighbor count: `some s` means a `TileChange`
to state `s` is pushed, `none` means no change is recorded. -/
def handleTileDecision (currentState : TileState) (numAliveNeighbors : Nat) :
    Option TileState :=
  if currentState = ALIVE ∧ numAliveNeighbors < 2 then
    some DEAD
  else if currentState = ALIVE ∧ (numAliveNeighbors = 2 ∨ numAliveNeighbors = 3) then
    none
  else if currentState = ALIVE ∧ numAliveNeighbors > 3 then
    some DEAD
  else if currentState = DEAD ∧ numAliveNeighbors = 3 then
    some ALIVE
  else
    none

/-- `handleTile`: reads the current state and neighbor count of one cell
and decides whether to record a pending change for it. -/
def handleTile (b : Board) (row col : Nat) : Option TileChange :=
  (handleTileDecision (getTileState b row col) (numAliveNeighbors b row col)).map
    (fun s => ⟨⟨row, col⟩, s⟩)

/-- The row-major scan order of `doTick`'s nested loops. -/
def rowMajor (nrows ncols : Nat) : List (Nat × Nat) :=
  (List.range nrows).flatMap (fun r => (List.range ncols).map (fun c => (r, c)))

/-- The pending-change stack built by `doTick`'s scan phase: each cell is
visited in row-major order and `handleTile`'s change, if any, is pushed
(so the head of the list is the most recently pushed change). -/
def scanChanges (b : Board) : List TileChange :=
  (rowMajor b.nrows b.ncols).foldl
    (fun stack p =>
      match handleTile b p.1 p.2 with
      | some ch => ch :: stack
      | none => stack)
    []

/-- `doChanges`: pop every pending change off the stack and apply it with
`setTileState` (head of the list first, matching the pop order). -/
def doChanges (b : Board) (stack : List TileChange) : Board :=
  stack.foldl (fun bd ch => setTileState bd ch.newState ch.point.row ch.point.col) b

/-- `doTick`: scan every cell for needed changes, then apply them; returns
the updated board together with the C function's `bool anyChanged` return
value. -/
def doTick (b : Board) : Board × Bool :=
  let stack := scanChanges b
  if stack.isEmpty then (b, false) else (doChanges b stack, true)

/-- `simulationLoop` together with `doTick`'s tick-counter increment
(`gameState->tick++` runs once per `doTick` call): repeatedly tick until
a tick reports no change.  The C loop has no built-in bound, so the model
takes explicit fuel; `some (b, tick)` means the loop halted within the
fuel, returning the final board and the final value of the tick counter.
The per-iteration `usleep` pacing is pure real time and has no effect on
the state. -/
def simulationLoop : Nat → Board → Nat → Option (Board × Nat)
  | 0, _, _ => none
  | fuel + 1, b, tick =>
    match doTick b with
    | (b2, true) => simulationLoop fuel b2 (tick + 1)
    | (b2, false) => some (b2, tick + 1)

/-- The final report printed by `main` after `simulationLoop` returns:
`"Terminated after %d ticks"` with argument `gameState.tick + 1`. -/
def reportedTicks (tick : Nat) : Nat :=
  tick + 1

/-- The pacing divisor computed at the top of `simulationLoop`:
`1000000 / ticksPerSec`.  In C this is integer division and division by
zero is undefined behaviour; the Lean total model returns 0 there. -/
def periodUs (ticksPerSec : Nat) : Nat :=
  1000000 / ticksPerSec

/-- The decimal parse performed by the `strtoul(buf, &end, 10)` call in
`getTicksPerSecond`: consume leading decimal digits, accumulating the
value; returns the value and the number of characters consumed (so
`consumed ≠ 0` models `buf != end`).  Leading whitespace/sign handling
and `ERANGE` saturation never trigger on the inputs considered. -/
def strtoulDigits : List Char → Nat → Nat × Nat
  | [], acc => (acc, 0)
  | ch :: rest, acc =>
    if ch.isDigit then
      let r := strtoulDigits rest (acc * 10 + (ch.toNat - 48))
      (r.1, r.2 + 1)
    else
      (acc, 0)

/-- One attempt of `getTicksPerSecond`'s read loop on a given input line:
with no pending `errno`, the function confirms (returns `true` and stores
`ticks`) exactly when `strtoul` consumed at least one character
(`buf != end`); otherwise it prints "Invalid value" and re-prompts,
modelled as `none`. -/
def getTicksPerSecond (input : List Char) : Option Nat :=
  let r := strtoulDigits input 0
  if r.2 ≠ 0 then some r.1 else none

/-- Reference transition rule, following the spec's B3/S23 policy list
verbatim (used to state the refinement claims; the code-side rule is
`handleTileDecision`). -/
def specNextState (s : TileState) (n : Nat) : TileState :=
  match s with
  | ALIVE => if n < 2 then DEAD else if n = 2 ∨ n = 3 then ALIVE else DEAD
  | DEAD => if n = 3 then ALIVE else DEAD

/-- The effective next state a cell ends up with after `handleTile`'s
decision is applied (no recorded change means the state is kept). -/
def effectiveNextState (s : TileState) (n : Nat) : TileState :=
  (handleTileDecision s n).getD s

/-- Reference simultaneous-update step, following the spec's Tick Engine
description: every cell of the row-major array is mapped, simultaneously,
to `specNextState` of its pre-tick state and pre-tick alive-neighbor
count, and `liveCount` is the number of `Alive` entries of the result. -/
def lifeStep (b : Board) : Board :=
  let newTiles := (List.range (b.nrows * b.ncols)).map (fun i =>
    specNextState (getTileState b (i / b.ncols) (i % b.ncols))
      (numAliveNeighbors b (i / b.ncols) (i % b.ncols)))
  ⟨b.nrows, b.ncols, newTiles, countAlive newTiles⟩

/-- A 3x3 board whose middle row is alive (a blinker clear of the
boundary). -/
def blinkerMid : Board :=
  ⟨3, 3, [DEAD, DEAD, DEAD, ALIVE, ALIVE, ALIVE, DEAD, DEAD, DEAD], 3⟩

/-- A 3x3 board whose middle column is alive. -/
def blinkerVert : Board :=
  ⟨3, 3, [DEAD, ALIVE, DEAD, DEAD, ALIVE, DEAD, DEAD, ALIVE, DEAD], 3⟩

/-- A 3x3 board with the top row `(0,0), (0,1), (0,2)` alive: the initial
configuration named by the spec's blinker property. -/
def blinkerTop : Board :=
  ⟨3, 3, [ALIVE, ALIVE, ALIVE, DEAD, DEAD, DEAD, DEAD, DEAD, DEAD], 3⟩

/-- An N x M board with only the corner cell `(0,0)` alive. -/
def cornerBoard (nrows ncols : Nat) : Board :=
  ⟨nrows, ncols, (List.replicate (nrows * ncols) DEAD).set 0 ALIVE, 1⟩

/-- The board `blinkerTop` one tick later: only `(0,1)` and `(1,1)` are
alive, because the vertical phase of the blinker is clipped at the top
boundary. -/
def blinkerTopStep : Board :=
  ⟨3, 3, [DEAD, ALIVE, DEAD, DEAD, ALIVE, DEAD, DEAD, DEAD, DEAD], 2⟩

/-- A 1x4 board with two isolated alive cells: one tick kills both, so
a tick applies two pending changes. -/
def pairBoard : Board :=
  ⟨1, 4, [ALIVE, DEAD, DEAD, ALIVE], 2⟩

/-- A 2x2 block of alive cells (a still life: a fixed point). -/
def block : Board :=
  ⟨2, 2, [ALIVE, ALIVE, ALIVE, ALIVE], 4⟩

/-- A 1x1 all-dead board: stabilizes on the very first tick. -/
def deadCell : Board :=
  ⟨1, 1, [DEAD], 0⟩

/-- The C conversion of the `bool` return value of `doTick` to an
unsigned integer (false = 0, true = 1). -/
def boolToUInt (v : Bool) : Nat :=
  if v then 1 else 0

/-- The apply phase viewed on the raw tile array: each change is an
(index, new state) pair written with `List.set`. -/
def applyIdx (t : List TileState) (cs : List (Nat × TileState)) : List TileState :=
  cs.foldl (fun t c => t.set c.1 c.2) t

/-! ## Basic lemmas about the board operations -/

theorem Board.ext {b1 b2 : Board} (h1 : b1.nrows = b2.nrows) (h2 : b1.ncols = b2.ncols)
    (h3 : b1.tiles = b2.tiles) (h4 : b1.nalive = b2.nalive) : b1 = b2 := by
  cases b1; cases b2; simp_all

theorem setTileState_nrows (b : Board) (v : TileState) (row col : Nat) :
    (setTileState b v row col).nrows = b.nrows := rfl

theorem setTileState_ncols (b : Board) (v : TileState) (row col : Nat) :
    (setTileState b v row col).ncols = b.ncols := rfl

theorem setTileState_tiles (b : Board) (v : TileState) (row col : Nat) :
    (setTileState b v row col).tiles = b.tiles.set (row * b.ncols + col) v := rfl

theorem setTileState_tiles_length (b : Board) (v : TileState) (row col : Nat) :
    (setTileState b v row col).tiles.length = b.tiles.length := by
  simp [setTileState]

/-- Writing one entry of a tile array trades the old entry's contribution to
the alive count for the new entry's contribution. -/
theorem countAlive_set (l : List TileState) (i : Nat) (v : TileState) (h : i < l.length) :
    countAlive (l.set i v) + (if l.getD i DEAD = ALIVE then 1 else 0) =
      countAlive l + (if v = ALIVE then 1 else 0) := by
  induction l generalizing i with
  | nil => simp at h
  | cons a t ih =>
    cases i with
    | zero =>
      simp only [List.set_cons_zero, countAlive, List.countP_cons, List.getD_cons_zero]
      split_ifs <;> simp_all <;> omega
    | succ n =>
      have hn : n < t.length := by simpa using h
      have := ih n hn
      simp only [List.set_cons_succ, countAlive, List.countP_cons, List.getD_cons_succ] at *
      split_ifs at * <;> simp_all <;> omega

/-- An in-bounds `setTileState` call preserves the liveCount invariant. -/
theorem setTileState_inv (b : Board) (v : TileState) (row col : Nat)
    (hinv : b.nalive = countAlive b.tiles) (h : row * b.ncols + col < b.tiles.length) :
    (setTileState b v row col).nalive = countAlive (setTileState b v row col).tiles := by
  have hset := countAlive_set b.tiles (row * b.ncols + col) v h
  have hcnt : (if b.tiles.getD (row * b.ncols + col) DEAD = ALIVE then 1 else 0) ≤
      countAlive b.tiles := by
    split_ifs with hp
    · have hmem : ALIVE ∈ b.tiles := by
        have hx : b.tiles.getD (row * b.ncols + col) DEAD ∈ b.tiles := by
          rw [List.getD_eq_getElem?_getD, List.getElem?_eq_getElem h]
          exact List.getElem_mem h
        rwa [hp] at hx
      have hpos : 0 < countAlive b.tiles := by
        unfold countAlive
        exact List.countP_pos_iff.mpr ⟨ALIVE, hmem, by simp⟩
      omega
    · omega
  unfold setTileState
  rcases hp : b.tiles.getD (row * b.ncols + col) DEAD <;> rcases v <;>
    simp only [hp] at hset hcnt ⊢ <;> simp_all <;> omega

/-- The row-major index of an in-bounds coordinate is in bounds. -/
theorem index_lt_size {row col nrows ncols : Nat} (hr : row < nrows) (hc : col < ncols) :
    row * ncols + col < nrows * ncols := by
  have h2 : (row + 1) * ncols ≤ nrows * ncols :=
    Nat.mul_le_mul (Nat.succ_le_of_lt hr) (Nat.le_refl ncols)
  have h3 : (row + 1) * ncols = row * ncols + ncols := Nat.succ_mul row ncols
  omega

/-- Row-major indexing is injective on in-bounds coordinates. -/
theorem index_inj {row col row' col' ncols : Nat} (hc : col < ncols) (hc' : col' < ncols)
    (h : row * ncols + col = row' * ncols + col') : row = row' ∧ col = col' := by
  have hm : 0 < ncols := Nat.lt_of_le_of_lt (Nat.zero_le _) hc
  have h1 : (row * ncols + col) / ncols = row := by
    rw [Nat.mul_comm row ncols, Nat.mul_add_div hm, Nat.div_eq_of_lt hc, Nat.add_zero]
  have h2 : (row * ncols + col) % ncols = col := by
    rw [Nat.mul_comm row ncols, Nat.mul_add_mod, Nat.mod_eq_of_lt hc]
  have h3 : (row' * ncols + col') / ncols = row' := by
    rw [Nat.mul_comm row' ncols, Nat.mul_add_div hm, Nat.div_eq_of_lt hc', Nat.add_zero]
  have h4 : (row' * ncols + col') % ncols = col' := by
    rw [Nat.mul_comm row' ncols, Nat.mul_add_mod, Nat.mod_eq_of_lt hc']
  rw [h] at h1 h2
  exact ⟨h1.symm.trans h3, h2.symm.trans h4⟩

/-- Recovering the coordinate from a row-major index. -/
theorem index_div_mod {row col ncols : Nat} (hc : col < ncols) :
    (row * ncols + col) / ncols = row ∧ (row * ncols + col) % ncols = col := by
  have hm : 0 < ncols := Nat.lt_of_le_of_lt (Nat.zero_le _) hc
  constructor
  · rw [Nat.mul_comm row ncols, Nat.mul_add_div hm, Nat.div_eq_of_lt hc, Nat.add_zero]
  · rw [Nat.mul_comm row ncols, Nat.mul_add_mod, Nat.mod_eq_of_lt hc]


/-! ## The scan phase: characterizing the pending-change stack -/

/-- Folding pushes over a list builds the reversed list of recorded
changes on top of the initial stack. -/
theorem foldl_push_eq (b : Board) (l : List (Nat × Nat)) (init : List TileChange) :
    l.foldl (fun stack p =>
        match handleTile b p.1 p.2 with | some ch => ch :: stack | none => stack) init
      = (l.filterMap (fun p => handleTile b p.1 p.2)).reverse ++ init := by
  induction l generalizing init with
  | nil => simp
  | cons a t ih =>
    cases h : handleTile b a.1 a.2 with
    | none => simp [List.filterMap_cons, h, ih]
    | some ch => simp [List.filterMap_cons, h, ih]

/-- The stack left by the scan phase holds exactly the changes of the
row-major scan, most recently visited cell on top. -/
theorem scanChanges_eq (b : Board) :
    scanChanges b
      = ((rowMajor b.nrows b.ncols).filterMap (fun p => handleTile b p.1 p.2)).reverse := by
  unfold scanChanges
  rw [foldl_push_eq]
  simp

theorem mem_rowMajor {n m : Nat} {p : Nat × Nat} :
    p ∈ rowMajor n m ↔ p.1 < n ∧ p.2 < m := by
  rcases p with ⟨r, c⟩
  simp [rowMajor]

/-- Mapping each scanned coordinate to its row-major index enumerates
`0, 1, ..., n*m - 1` in order. -/
theorem rowMajor_map_index (n m : Nat) :
    (rowMajor n m).map (fun p => p.1 * m + p.2) = List.range (n * m) := by
  induction n with
  | zero => simp [rowMajor]
  | succ k ih =>
    rw [rowMajor, List.range_succ, List.flatMap_append]
    rw [show (List.range k).flatMap (fun r => (List.range m).map fun c => (r, c))
          = rowMajor k m from rfl]
    rw [List.map_append, ih, Nat.succ_mul, List.range_add]
    congr 1
    simp [List.map_map, Function.comp]

theorem nodup_rowMajor_index (n m : Nat) :
    (((rowMajor n m).map (fun p => p.1 * m + p.2))).Nodup := by
  rw [rowMajor_map_index]
  exact List.nodup_range (n * m)

/-! ## The transition decision -/

theorem handleTileDecision_some {s v : TileState} {n : Nat}
    (h : handleTileDecision s n = some v) : v = specNextState s n ∧ v ≠ s := by
  rcases s <;> simp [handleTileDecision, specNextState] at h ⊢ <;>
    split_ifs at h ⊢ <;> simp_all <;> (try subst h) <;> (first | decide | omega)

theorem handleTileDecision_none {s : TileState} {n : Nat}
    (h : handleTileDecision s n = none) : specNextState s n = s := by
  rcases s <;> simp [handleTileDecision, specNextState] at h ⊢ <;>
    (try split_ifs at h ⊢) <;> (first | assumption | omega | simp_all)

theorem handleTile_some {b : Board} {r c : Nat} {ch : TileChange}
    (h : handleTile b r c = some ch) :
    ch.point = ⟨r, c⟩ ∧
      ch.newState = specNextState (getTileState b r c) (numAliveNeighbors b r c) ∧
      ch.newState ≠ getTileState b r c := by
  unfold handleTile at h
  rcases Option.map_eq_some'.mp h with ⟨v, hd, hv⟩
  obtain ⟨hspec, hne⟩ := handleTileDecision_some hd
  rw [← hv]
  exact ⟨rfl, hspec, hspec ▸ hne⟩

theorem handleTile_none {b : Board} {r c : Nat}
    (h : handleTile b r c = none) :
    specNextState (getTileState b r c) (numAliveNeighbors b r c) = getTileState b r c := by
  unfold handleTile at h
  exact handleTileDecision_none (Option.map_eq_none'.mp h)

/-- The coordinates of the recorded changes form a sublist of the scan
order (so each cell contributes at most one change). -/
theorem filterMap_points_sublist (b : Board) (l : List (Nat × Nat)) :
    List.Sublist
      ((l.filterMap (fun p => handleTile b p.1 p.2)).map
        (fun ch => (ch.point.row, ch.point.col))) l := by
  induction l with
  | nil => simp
  | cons a t ih =>
    cases h : handleTile b a.1 a.2 with
    | none =>
      have h2 : (fun p : Nat × Nat => handleTile b p.1 p.2) a = none := h
      rw [@List.filterMap_cons_none (Nat × Nat) TileChange
        (fun p => handleTile b p.1 p.2) a t h2]
      exact ih.cons a
    | some ch =>
      have h2 : (fun p : Nat × Nat => handleTile b p.1 p.2) a = some ch := h
      rw [@List.filterMap_cons_some (Nat × Nat) TileChange
        (fun p => handleTile b p.1 p.2) a t ch h2]
      have hpt : ch.point = ⟨a.1, a.2⟩ := (handleTile_some h).1
      simp only [List.map_cons, hpt]
      exact List.Sublist.cons₂ (a.1, a.2) ih

/-! ## The apply phase: folding writes over distinct indices -/

theorem applyIdx_length (t : List TileState) (cs : List (Nat × TileState)) :
    (applyIdx t cs).length = t.length := by
  induction cs generalizing t with
  | nil => rfl
  | cons c cs ih => simp [applyIdx, List.foldl_cons] at ih ⊢; rw [ih, List.length_set]

theorem applyIdx_getD_not_mem {i : Nat} {t : List TileState} {cs : List (Nat × TileState)}
    (h : ∀ c ∈ cs, c.1 ≠ i) :
    (applyIdx t cs).getD i DEAD = t.getD i DEAD := by
  induction cs generalizing t with
  | nil => rfl
  | cons c cs ih =>
    have hc : c.1 ≠ i := h c (List.mem_cons_self c cs)
    have ht : ∀ c2 ∈ cs, c2.1 ≠ i := fun c2 hc2 => h c2 (List.mem_cons_of_mem c hc2)
    simp only [applyIdx, List.foldl_cons] at ih ⊢
    rw [ih ht]
    simp [List.getD_eq_getElem?_getD, List.getElem?_set_ne hc]

theorem applyIdx_getD_mem {i : Nat} {v : TileState} {t : List TileState}
    {cs : List (Nat × TileState)} (hnd : (cs.map Prod.fst).Nodup)
    (hm : (i, v) ∈ cs) (hi : i < t.length) :
    (applyIdx t cs).getD i DEAD = v := by
  induction cs generalizing t with
  | nil => simp at hm
  | cons c cs ih =>
    simp only [applyIdx, List.foldl_cons]
    rcases List.mem_cons.mp hm with heq | htail
    · have hni : ∀ c2 ∈ cs, c2.1 ≠ i := by
        intro c2 hc2 hcontra
        apply (List.nodup_cons.mp hnd).1
        have hfst : c.1 = c2.1 := by rw [← heq, hcontra]
        rw [hfst]
        exact List.mem_map_of_mem Prod.fst hc2
      have := @applyIdx_getD_not_mem i (t.set c.1 c.2) cs hni
      simp only [applyIdx] at this
      rw [this, ← heq]
      simp [List.getD_eq_getElem?_getD, List.getElem?_set_self (by simpa using hi : i < t.length)]
    · exact ih (List.nodup_cons.mp hnd).2 htail (by simpa using hi)

/-- `doChanges` only writes tiles: the dimensions are untouched. -/
theorem doChanges_nrows (b : Board) (cs : List TileChange) :
    (doChanges b cs).nrows = b.nrows := by
  induction cs generalizing b with
  | nil => rfl
  | cons c cs ih => simp only [doChanges, List.foldl_cons] at ih ⊢; rw [ih]; rfl

theorem doChanges_ncols (b : Board) (cs : List TileChange) :
    (doChanges b cs).ncols = b.ncols := by
  induction cs generalizing b with
  | nil => rfl
  | cons c cs ih => simp only [doChanges, List.foldl_cons] at ih ⊢; rw [ih]; rfl

/-- The tile array after `doChanges` is the fold of raw indexed writes. -/
theorem doChanges_tiles (b : Board) (cs : List TileChange) :
    (doChanges b cs).tiles =
      applyIdx b.tiles
        (cs.map (fun ch => (ch.point.row * b.ncols + ch.point.col, ch.newState))) := by
  induction cs generalizing b with
  | nil => rfl
  | cons c cs ih =>
    simp only [doChanges, List.foldl_cons, List.map_cons, applyIdx] at ih ⊢
    rw [ih]
    rfl

/-- `doChanges` preserves the liveCount invariant when every change is
in bounds. -/
theorem doChanges_inv (b : Board) (cs : List TileChange)
    (hinv : b.nalive = countAlive b.tiles)
    (hb : ∀ ch ∈ cs, ch.point.row * b.ncols + ch.point.col < b.tiles.length) :
    (doChanges b cs).nalive = countAlive (doChanges b cs).tiles := by
  induction cs generalizing b with
  | nil => exact hinv
  | cons c cs ih =>
    simp only [doChanges, List.foldl_cons] at ih ⊢
    apply ih
    · exact setTileState_inv b c.newState c.point.row c.point.col hinv
        (hb c (List.mem_cons_self c cs))
    · intro ch hch
      rw [setTileState_ncols, setTileState_tiles_length]
      exact hb ch (List.mem_cons_of_mem c hch)

/-! ## doTick equals the reference simultaneous update -/

theorem doTick_board (b : Board) : (doTick b).1 = doChanges b (scanChanges b) := by
  unfold doTick
  by_cases h : (scanChanges b).isEmpty = true
  · rw [List.isEmpty_iff] at h
    simp [h, doChanges]
  · simp [h]

theorem getD_of_lt (l : List TileState) {i : Nat} (h : i < l.length) :
    l.getD i DEAD = l[i] := by
  rw [List.getD_eq_getElem?_getD, List.getElem?_eq_getElem h]
  rfl

theorem lifeStep_tiles_length (b : Board) :
    (lifeStep b).tiles.length = b.nrows * b.ncols := by
  simp [lifeStep]

theorem lifeStep_tiles_getD (b : Board) {i : Nat} (hi : i < b.nrows * b.ncols) :
    (lifeStep b).tiles.getD i DEAD =
      specNextState (getTileState b (i / b.ncols) (i % b.ncols))
        (numAliveNeighbors b (i / b.ncols) (i % b.ncols)) := by
  unfold lifeStep
  simp [List.getD_eq_getElem?_getD, List.getElem?_range, hi]

/-- The row-major indices of the scanned changes are pairwise distinct:
each cell contributes at most one pending change. -/
theorem nodup_scan_indices (b : Board) :
    (((rowMajor b.nrows b.ncols).filterMap (fun p => handleTile b p.1 p.2)).map
        (fun ch => ch.point.row * b.ncols + ch.point.col)).Nodup := by
  have hsub : List.Sublist
      ((((rowMajor b.nrows b.ncols).filterMap (fun p => handleTile b p.1 p.2)).map
          (fun ch => (ch.point.row, ch.point.col))).map (fun p => p.1 * b.ncols + p.2))
      ((rowMajor b.nrows b.ncols).map (fun p => p.1 * b.ncols + p.2)) :=
    (filterMap_points_sublist b _).map _
  rw [List.map_map] at hsub
  have hnd := nodup_rowMajor_index b.nrows b.ncols
  exact List.Nodup.sublist hsub hnd

/-- Every pending change recorded by the scan is at an in-bounds
coordinate of the scanned board. -/
theorem scanChanges_mem_bounds (b : Board) {ch : TileChange}
    (h : ch ∈ scanChanges b) : ch.point.row < b.nrows ∧ ch.point.col < b.ncols := by
  rw [scanChanges_eq, List.mem_reverse] at h
  rcases List.mem_filterMap.mp h with ⟨p, hp, hht⟩
  have hpt := (handleTile_some hht).1
  have hb := mem_rowMajor.mp hp
  rw [hpt]
  exact hb

/-- Core pointwise fact: after a tick, the tile at row-major index `i`
holds the transition rule applied to the pre-tick state and pre-tick
neighbor count of that cell. -/
theorem tick_tiles_getD (b : Board) (hlen : b.tiles.length = b.nrows * b.ncols)
    {i : Nat} (hi : i < b.nrows * b.ncols) :
    ((doTick b).1).tiles.getD i DEAD =
      specNextState (getTileState b (i / b.ncols) (i % b.ncols))
        (numAliveNeighbors b (i / b.ncols) (i % b.ncols)) := by
  have hm : 0 < b.ncols := by
    rcases Nat.eq_zero_or_pos b.ncols with h0 | h
    · rw [h0, Nat.mul_zero] at hi; omega
    · exact h
  have hr : i / b.ncols < b.nrows := (Nat.div_lt_iff_lt_mul hm).mpr hi
  have hc : i % b.ncols < b.ncols := Nat.mod_lt _ hm
  have hidx : (i / b.ncols) * b.ncols + i % b.ncols = i := by
    rw [Nat.mul_comm]
    exact Nat.div_add_mod i b.ncols
  rw [doTick_board, doChanges_tiles, scanChanges_eq, List.map_reverse]
  have hndrev : (((((rowMajor b.nrows b.ncols).filterMap
        (fun p => handleTile b p.1 p.2)).map
        (fun ch => (ch.point.row * b.ncols + ch.point.col, ch.newState))).reverse).map
        Prod.fst).Nodup := by
    rw [List.map_reverse, List.nodup_reverse, List.map_map]
    exact nodup_scan_indices b
  cases hht : handleTile b (i / b.ncols) (i % b.ncols) with
  | some ch =>
    obtain ⟨hpt, hst, _⟩ := handleTile_some hht
    have hmem : (i, ch.newState) ∈
        ((((rowMajor b.nrows b.ncols).filterMap (fun p => handleTile b p.1 p.2)).map
          (fun ch => (ch.point.row * b.ncols + ch.point.col, ch.newState))).reverse) := by
      rw [List.mem_reverse]
      apply List.mem_map.mpr
      refine ⟨ch, ?_, ?_⟩
      · exact List.mem_filterMap.mpr ⟨(i / b.ncols, i % b.ncols),
          mem_rowMajor.mpr ⟨hr, hc⟩, hht⟩
      · rw [hpt]
        simpa using hidx
    rw [applyIdx_getD_mem hndrev hmem (by rw [hlen]; exact hi)]
    exact hst
  | none =>
    have hnone : ∀ c2 ∈ ((((rowMajor b.nrows b.ncols).filterMap
          (fun p => handleTile b p.1 p.2)).map
          (fun ch => (ch.point.row * b.ncols + ch.point.col, ch.newState))).reverse),
        c2.1 ≠ i := by
      intro c2 hc2 hcontra
      rw [List.mem_reverse] at hc2
      rcases List.mem_map.mp hc2 with ⟨ch, hchmem, hcheq⟩
      rcases List.mem_filterMap.mp hchmem with ⟨p, hp, hht2⟩
      have hpt := (handleTile_some hht2).1
      have hpb := mem_rowMajor.mp hp
      have hidx2 : p.1 * b.ncols + p.2 = i := by
        rw [← hcontra, ← hcheq, hpt]
      rw [← hidx] at hidx2
      obtain ⟨hr2, hc2eq⟩ := index_inj hpb.2 hc hidx2
      rw [← hr2, ← hc2eq] at hht
      rw [hht] at hht2
      exact Option.noConfusion hht2
    rw [applyIdx_getD_not_mem hnone]
    rw [handleTile_none hht]
    unfold getTileState
    rw [hidx]

/-- One tick of the engine computes exactly the reference simultaneous
update: scan against the unmodified pre-tick board, then apply. -/
theorem tick_simultaneous (b : Board) (hlen : b.tiles.length = b.nrows * b.ncols)
    (hinv : b.nalive = countAlive b.tiles) :
    (doTick b).1 = lifeStep b := by
  have hlen2 : ((doTick b).1).tiles.length = b.nrows * b.ncols := by
    rw [doTick_board, doChanges_tiles, applyIdx_length, hlen]
  have htiles : ((doTick b).1).tiles = (lifeStep b).tiles := by
    apply List.ext_getElem
    · rw [hlen2, lifeStep_tiles_length]
    · intro i h1 h2
      have hi : i < b.nrows * b.ncols := by rw [← hlen2]; exact h1
      rw [← getD_of_lt _ h1, ← getD_of_lt _ h2, tick_tiles_getD b hlen hi,
        lifeStep_tiles_getD b hi]
  apply Board.ext
  · rw [doTick_board, doChanges_nrows]; rfl
  · rw [doTick_board, doChanges_ncols]; rfl
  · exact htiles
  · have hbounds : ∀ ch ∈ scanChanges b,
        ch.point.row * b.ncols + ch.point.col < b.tiles.length := by
      intro ch hch
      obtain ⟨h1, h2⟩ := scanChanges_mem_bounds b hch
      rw [hlen]
      exact index_lt_size h1 h2
    have hinv2 : ((doTick b).1).nalive = countAlive ((doTick b).1).tiles := by
      rw [doTick_board]
      exact doChanges_inv b (scanChanges b) hinv hbounds
    rw [hinv2, htiles]
    rfl

/-! ## Fixed points and the anyChanged flag -/

theorem doTick_flag (b : Board) :
    (doTick b).2 = !(scanChanges b).isEmpty := by
  unfold doTick
  by_cases h : (scanChanges b).isEmpty = true <;> simp [h]

/-- The `anyChanged` flag is false exactly when the tick leaves the board
unchanged. -/
theorem doTick_fixed_iff (b : Board) (hlen : b.tiles.length = b.nrows * b.ncols) :
    (doTick b).2 = false ↔ (doTick b).1 = b := by
  constructor
  · intro h
    rw [doTick_flag, Bool.not_eq_false', List.isEmpty_iff] at h
    unfold doTick
    simp [h]
  · intro h
    by_contra hflag
    have hflag2 : (scanChanges b).isEmpty = false := by
      rw [doTick_flag] at hflag
      cases hv : (scanChanges b).isEmpty
      · rfl
      · rw [hv] at hflag; simp at hflag
    have hne : scanChanges b ≠ [] := by
      intro hnil
      rw [hnil] at hflag2
      simp at hflag2
    rcases List.exists_mem_of_ne_nil _ hne with ⟨ch, hch⟩
    rw [scanChanges_eq, List.mem_reverse] at hch
    rcases List.mem_filterMap.mp hch with ⟨p, hp, hht⟩
    obtain ⟨hpt, hst, hnst⟩ := handleTile_some hht
    obtain ⟨hpr, hpc⟩ := mem_rowMajor.mp hp
    have hi : p.1 * b.ncols + p.2 < b.nrows * b.ncols := index_lt_size hpr hpc
    obtain ⟨hdiv, hmod⟩ := @index_div_mod p.1 p.2 b.ncols hpc
    have htick := tick_tiles_getD b hlen hi
    rw [hdiv, hmod, h] at htick
    have hcur : b.tiles.getD (p.1 * b.ncols + p.2) DEAD = getTileState b p.1 p.2 := rfl
    rw [hcur] at htick
    exact hnst (hst.trans htick.symm)

/-! ## Sequences of setTileState calls -/

/-- Folding any sequence of in-bounds `setTileState` calls preserves the
liveCount invariant. -/
theorem setTileState_seq_inv (b : Board) (calls : List (TileState × Nat × Nat))
    (hinv : b.nalive = countAlive b.tiles)
    (hlen : b.tiles.length = b.nrows * b.ncols)
    (hb : ∀ c ∈ calls, c.2.1 < b.nrows ∧ c.2.2 < b.ncols) :
    (calls.foldl (fun bd c => setTileState bd c.1 c.2.1 c.2.2) b).nalive
      = countAlive (calls.foldl (fun bd c => setTileState bd c.1 c.2.1 c.2.2) b).tiles := by
  induction calls generalizing b with
  | nil => exact hinv
  | cons c cs ih =>
    simp only [List.foldl_cons]
    obtain ⟨hr, hc⟩ := hb c (List.mem_cons_self c cs)
    apply ih
    · exact setTileState_inv b c.1 c.2.1 c.2.2 hinv (by rw [hlen]; exact index_lt_size hr hc)
    · rw [setTileState_tiles_length, setTileState_nrows, setTileState_ncols]
      exact hlen
    · intro c2 hc2
      rw [setTileState_nrows, setTileState_ncols]
      exact hb c2 (List.mem_cons_of_mem c hc2)

/-! ## The neighbor scan -/

/-- Characterization of the coordinates the neighbor loop reads: exactly
the 8 offset coordinates that survive the range check. -/
theorem mem_neighborReads {nrows ncols row col : Nat} {p : Int × Int} :
    p ∈ neighborReads nrows ncols row col ↔
      ((∃ o ∈ neighborOffsets, p = ((row : Int) + o.1, (col : Int) + o.2)) ∧
        0 ≤ p.1 ∧ p.1 < (nrows : Int) ∧ 0 ≤ p.2 ∧ p.2 < (ncols : Int)) := by
  unfold neighborReads
  rw [List.mem_filter, List.mem_map]
  constructor
  · rintro ⟨⟨o, ho, rfl⟩, hf⟩
    simp only [outOfRange, Bool.not_eq_true', Bool.or_eq_false_iff,
      decide_eq_false_iff_not, Int.not_lt] at hf
    refine ⟨⟨o, ho, rfl⟩, ?_⟩
    obtain ⟨⟨⟨h1, h2⟩, h3⟩, h4⟩ := hf
    constructor
    · exact h1
    constructor
    · omega
    constructor
    · exact h3
    · omega
  · rintro ⟨⟨o, ho, rfl⟩, h1, h2, h3, h4⟩
    refine ⟨⟨o, ho, rfl⟩, ?_⟩
    simp only [outOfRange, Bool.not_eq_true', Bool.or_eq_false_iff,
      decide_eq_false_iff_not, Int.not_lt]
    refine ⟨⟨⟨?_, ?_⟩, ?_⟩, ?_⟩ <;> omega

/-- The neighbor count is the count of alive tiles over exactly the
coordinates of `neighborReads`. -/
theorem numAliveNeighbors_eq_reads (b : Board) (row col : Nat) :
    numAliveNeighbors b row col =
      (neighborReads b.nrows b.ncols row col).countP
        (fun p => decide (getTileState b p.1.toNat p.2.toNat = ALIVE)) := by
  unfold numAliveNeighbors neighborReads
  rw [List.countP_filter, List.countP_map]
  apply List.countP_congr
  intro o ho
  simp [Function.comp, Bool.and_comm]

/-- Reading any cell of the corner board: `ALIVE` exactly at `(0, 0)`. -/
theorem getTileState_cornerBoard (N M r c : Nat) (hM : 0 < M) :
    getTileState (cornerBoard N M) r c =
      if r = 0 ∧ c = 0 ∧ 0 < N * M then ALIVE else DEAD := by
  unfold getTileState cornerBoard
  by_cases h0 : r = 0 ∧ c = 0
  · obtain ⟨hr, hc⟩ := h0
    subst hr
    subst hc
    by_cases hNM : 0 < N * M
    · have hlen : 0 < ((List.replicate (N * M) DEAD).set 0 ALIVE).length := by
        simpa using hNM
      simp only [Nat.zero_mul, Nat.zero_add, hNM, and_true, true_and, if_true]
      rw [List.getD_eq_getElem?_getD,
        List.getElem?_set_self (by simpa using hNM)]
      simp
    · have hz : N * M = 0 := by omega
      simp [hz, hNM]
  · have hne : r * M + c ≠ 0 := by
      intro hz
      have hc0 : c = 0 := by omega
      have hr0 : r * M = 0 := by omega
      rcases Nat.mul_eq_zero.mp hr0 with h | h
      · exact h0 ⟨h, hc0⟩
      · omega
    have hcond : ¬(r = 0 ∧ c = 0 ∧ 0 < N * M) := by
      intro hcontra
      exact h0 ⟨hcontra.1, hcontra.2.1⟩
    rw [if_neg hcond]
    rw [List.getD_eq_getElem?_getD, List.getElem?_set_ne (Ne.symm hne)]
    rcases Nat.lt_or_ge (r * M + c) (N * M) with hlt | hge
    · rw [List.getElem?_replicate_of_lt hlt]
      rfl
    · rw [List.getElem?_eq_none (by simpa using hge)]
      rfl

/-- On the corner board, cell `(1, 1)` counts exactly one alive
neighbor, for any dimensions of at least 2 x 2. -/
theorem numAliveNeighbors_cornerBoard_11 (N M : Nat) (hN : 2 ≤ N) (hM : 2 ≤ M) :
    numAliveNeighbors (cornerBoard N M) 1 1 = 1 := by
  have hNM : 0 < N * M := Nat.mul_pos (by omega) (by omega)
  have hread : ∀ r c : Nat, getTileState (cornerBoard N M) r c =
      if r = 0 ∧ c = 0 ∧ 0 < N * M then ALIVE else DEAD :=
    fun r c => getTileState_cornerBoard N M r c (by omega)
  have ho00 : outOfRange (cornerBoard N M).nrows (cornerBoard N M).ncols 0 0 = false := by
    simp only [outOfRange, cornerBoard, Bool.or_eq_false_iff, decide_eq_false_iff_not,
      Int.not_lt]
    refine ⟨⟨⟨?_, ?_⟩, ?_⟩, ?_⟩ <;> omega
  unfold numAliveNeighbors neighborOffsets
  simp only [List.countP_cons, List.countP_nil]
  norm_num [hread, hNM, ho00]
  simp

/-- On the corner board, every cell outside the 3 x 3 neighborhood of
the corner counts zero alive neighbors. -/
theorem numAliveNeighbors_cornerBoard_far (N M r c : Nat) (hM : 0 < M)
    (h : 2 ≤ r ∨ 2 ≤ c) :
    numAliveNeighbors (cornerBoard N M) r c = 0 := by
  unfold numAliveNeighbors
  rw [List.countP_eq_zero]
  intro o ho
  simp only [Bool.and_eq_true, Bool.not_eq_true', decide_eq_true_eq]
  rintro ⟨hout, halive⟩
  simp only [outOfRange, Bool.or_eq_false_iff, decide_eq_false_iff_not, Int.not_lt] at hout
  obtain ⟨⟨⟨h1, h2⟩, h3⟩, h4⟩ := hout
  rw [getTileState_cornerBoard N M _ _ hM] at halive
  split_ifs at halive with hcond
  · obtain ⟨hr0, hc0, _⟩ := hcond
    have ho8 : o = (-1, -1) ∨ o = (-1, 0) ∨ o = (-1, 1) ∨ o = (0, -1) ∨ o = (0, 1) ∨
        o = (1, -1) ∨ o = (1, 0) ∨ o = (1, 1) := by
      simpa [neighborOffsets] using ho
    rcases ho8 with rfl | rfl | rfl | rfl | rfl | rfl | rfl | rfl <;> omega
  all_goals exact absurd halive (by decide)

/-! ## The claims -/

/-- C1: one tick (`doTick`) implements the synchronous Game of Life step.
The transition rule of every cell is evaluated against the board as it was
at the start of the tick, the board is not mutated until the scan is
complete, and after the apply phase every cell at row-major index `i`
holds `nextState(preTickState, preTickAliveNeighborCount)`; equivalently,
the board after the tick equals the one produced by the reference
simultaneous-update function `lifeStep`. -/
theorem claim1_doTick_is_simultaneous_update (b : Board)
    (hlen : b.tiles.length = b.nrows * b.ncols)
    (hinv : b.nalive = countAlive b.tiles) :
    (∀ i : Nat, i < b.nrows * b.ncols →
      ((doTick b).1).tiles.getD i DEAD =
        specNextState (getTileState b (i / b.ncols) (i % b.ncols))
          (numAliveNeighbors b (i / b.ncols) (i % b.ncols))) ∧
    (doTick b).1 = lifeStep b :=
  ⟨fun _ hi => tick_tiles_getD b hlen hi, tick_simultaneous b hlen hinv⟩

theorem claim1_witness : (doTick blinkerMid).1 = lifeStep blinkerMid :=
  (claim1_doTick_is_simultaneous_update blinkerMid (by decide) (by decide)).2

/-- C2: for every cell state and every alive-neighbor count, the transition
rule computed by `handleTile`'s branch chain is exactly B3/S23 as the spec
enumerates it (`specNextState` is that enumeration verbatim): an Alive cell
with fewer than 2 alive neighbors dies, with 2 or 3 stays alive, with more
than 3 dies; a Dead cell with exactly 3 alive neighbors becomes alive and
stays dead otherwise. -/
theorem claim2_transition_rule_is_B3S23 (s : TileState) (n : Nat) :
    effectiveNextState s n = specNextState s n := by
  unfold effectiveNextState
  cases hd : handleTileDecision s n with
  | none => simpa using (handleTileDecision_none hd).symm
  | some v => simpa using (handleTileDecision_some hd).1

/-- C3: `setTileState` preserves the liveCount invariant: starting from a
board whose `nalive` equals the scan count of Alive tiles, any in-bounds
write and any sequence of in-bounds writes leaves `nalive` equal to the
scan count of Alive tiles. -/
theorem claim3_setState_preserves_liveCount (b : Board)
    (hinv : b.nalive = countAlive b.tiles)
    (hlen : b.tiles.length = b.nrows * b.ncols) :
    (∀ (v : TileState) (row col : Nat), row < b.nrows → col < b.ncols →
      (setTileState b v row col).nalive = countAlive (setTileState b v row col).tiles) ∧
    (∀ calls : List (TileState × Nat × Nat),
      (∀ c ∈ calls, c.2.1 < b.nrows ∧ c.2.2 < b.ncols) →
      (calls.foldl (fun bd c => setTileState bd c.1 c.2.1 c.2.2) b).nalive
        = countAlive (calls.foldl (fun bd c => setTileState bd c.1 c.2.1 c.2.2) b).tiles) := by
  constructor
  · intro v row col hr hc
    exact setTileState_inv b v row col hinv (by rw [hlen]; exact index_lt_size hr hc)
  · intro calls hb
    exact setTileState_seq_inv b calls hinv hlen hb

theorem claim3_witness :
    (setTileState blinkerMid ALIVE 0 0).nalive
      = countAlive (setTileState blinkerMid ALIVE 0 0).tiles :=
  (claim3_setState_preserves_liveCount blinkerMid (by decide) (by decide)).1
    ALIVE 0 0 (by decide) (by decide)

/-- C4 counterexample: `doTick` does not return the number of pending
changes applied.  On `pairBoard` the tick applies 2 pending changes, but
the C function returns the `bool` true, whose unsigned-integer value is 1,
not 2. -/
theorem claim4_counterexample :
    (scanChanges pairBoard).length = 2 ∧ boolToUInt (doTick pairBoard).2 = 1 := by
  decide

/-- C4 as amended: `doTick` returns a boolean `anyChanged` flag rather
than a count; the flag is false (0 as an unsigned integer) exactly when
the board is at a fixed point, i.e. when the tick changes no cell. -/
theorem claim4_amended_flag_iff_fixed_point (b : Board)
    (hlen : b.tiles.length = b.nrows * b.ncols) :
    (doTick b).2 = false ↔ (doTick b).1 = b :=
  doTick_fixed_iff b hlen

theorem claim4_witness : (doTick block).2 = false :=
  (claim4_amended_flag_iff_fixed_point block (by decide)).mpr (by decide)

/-- C5: the simulation loop does stop right after the stabilizing tick,
but the reported total is off by one.  On the already-stable `deadCell`
board the loop executes exactly one tick (the stabilizing one), leaving
the tick counter at 1, yet `main` reports `tick + 1 = 2` ticks. -/
theorem claim5_report_off_by_one :
    simulationLoop 5 deadCell 0 = some (deadCell, 1) ∧
      reportedTicks 1 = 2 ∧ reportedTicks 1 ≠ 1 := by
  refine ⟨by decide, rfl, by decide⟩

/-- C6: the neighbor scan of a cell examines exactly the 8 offset
coordinates around it, keeping precisely those inside
`[0, nrows) x [0, ncols)` (so no read is ever out of bounds), and the
neighbor count is the count of Alive tiles over exactly those reads; on a
board where only corner `(0,0)` is alive (dimensions at least 2 x 2),
cell `(1,1)` counts exactly 1 alive neighbor and every cell outside the
3 x 3 neighborhood of the corner counts 0. -/
theorem claim6_neighbor_scan (nrows ncols row col : Nat)
    (hn : 0 < nrows) (hm : 0 < ncols) (hr : row < nrows) (hc : col < ncols) :
    ((∀ p ∈ neighborReads nrows ncols row col,
        0 ≤ p.1 ∧ p.1 < (nrows : Int) ∧ 0 ≤ p.2 ∧ p.2 < (ncols : Int)) ∧
      (∀ p : Int × Int, p ∈ neighborReads nrows ncols row col ↔
        ((∃ o ∈ neighborOffsets, p = ((row : Int) + o.1, (col : Int) + o.2)) ∧
          0 ≤ p.1 ∧ p.1 < (nrows : Int) ∧ 0 ≤ p.2 ∧ p.2 < (ncols : Int))) ∧
      (∀ b : Board, b.nrows = nrows → b.ncols = ncols →
        numAliveNeighbors b row col =
          (neighborReads nrows ncols row col).countP
            (fun p => decide (getTileState b p.1.toNat p.2.toNat = ALIVE)))) ∧
    ((2 ≤ nrows → 2 ≤ ncols → numAliveNeighbors (cornerBoard nrows ncols) 1 1 = 1) ∧
      (∀ r c : Nat, 2 ≤ r ∨ 2 ≤ c → numAliveNeighbors (cornerBoard nrows ncols) r c = 0)) := by
  refine ⟨⟨fun p hp => (mem_neighborReads.mp hp).2, fun p => mem_neighborReads, ?_⟩, ?_, ?_⟩
  · intro b h1 h2
    rw [← h1, ← h2]
    exact numAliveNeighbors_eq_reads b row col
  · intro h1 h2
    exact numAliveNeighbors_cornerBoard_11 nrows ncols h1 h2
  · intro r c hrc
    exact numAliveNeighbors_cornerBoard_far nrows ncols r c hm hrc

theorem claim6_witness : numAliveNeighbors (cornerBoard 3 3) 1 1 = 1 :=
  (claim6_neighbor_scan 3 3 1 1 (by decide) (by decide) (by decide) (by decide)).2.1
    (by decide) (by decide)

/-- C7: a tick rate of zero is NOT rejected: on the input line "0",
`strtoul` consumes one character, so `getTicksPerSecond` confirms with
`ticksPerSecond = 0`, and the driver then evaluates `1000000 / 0`
(undefined behaviour in C). -/
theorem claim7_zero_rate_accepted : getTicksPerSecond ['0'] = some 0 := by
  decide

/-- C8 counterexample: the 3-cell row `(0,0), (0,1), (0,2)` sits on the
top boundary, so the blinker's vertical phase is clipped: after one tick
only the 2 cells `(0,1)` and `(1,1)` are alive (not a vertical
3-in-a-column), and after a second tick the board is not back to the
original (it is empty). -/
theorem claim8_counterexample :
    (doTick blinkerTop).1 = blinkerTopStep ∧ blinkerTopStep.nalive = 2 ∧
      (doTick blinkerTopStep).1 ≠ blinkerTop := by
  decide

/-- C8 as amended: a 3-cell row clear of the boundary, `(1,0), (1,1),
(1,2)` on a 3 x 3 board, evolves in one tick to the vertical 3-in-a-column
`(0,1), (1,1), (2,1)` centered on the same middle cell, and returns to the
original row after a second tick (period-2 blinker). -/
theorem claim8_amended_blinker_oscillates :
    (doTick blinkerMid).1 = blinkerVert ∧ (doTick blinkerVert).1 = blinkerMid := by
  decide

/-- C9: writing a cell's current state back with `setTileState` leaves
`nalive` unchanged. -/
theorem claim9_noop_write_preserves_liveCount (b : Board) (v : TileState) (row col : Nat)
    (hr : row < b.nrows) (hc : col < b.ncols)
    (h : getTileState b row col = v) :
    (setTileState b v row col).nalive = b.nalive := by
  unfold getTileState at h
  unfold setTileState
  split_ifs with h1 h2
  · rw [h] at h1
    rw [h1.1] at h1
    exact absurd h1.2 (by decide)
  · rw [h] at h2
    rw [h2.1] at h2
    exact absurd h2.2 (by decide)
  · rfl

theorem claim9_witness : (setTileState blinkerMid DEAD 0 0).nalive = blinkerMid.nalive :=
  claim9_noop_write_preserves_liveCount blinkerMid DEAD 0 0 (by decide) (by decide)
    (by decide)

/-- C10: an in-bounds `setTileState` call changes at most the target
cell: every other in-bounds cell reads the same state afterwards, and the
board dimensions are unchanged. -/
theorem claim10_setState_frame (b : Board) (v : TileState) (row col r2 c2 : Nat)
    (hr : row < b.nrows) (hc : col < b.ncols) (hr2 : r2 < b.nrows) (hc2 : c2 < b.ncols)
    (hne : (r2, c2) ≠ (row, col)) :
    getTileState (setTileState b v row col) r2 c2 = getTileState b r2 c2 ∧
      (setTileState b v row col).nrows = b.nrows ∧
      (setTileState b v row col).ncols = b.ncols := by
  refine ⟨?_, rfl, rfl⟩
  have hidx : row * b.ncols + col ≠ r2 * b.ncols + c2 := by
    intro hcontra
    obtain ⟨h1, h2⟩ := index_inj hc hc2 hcontra
    exact hne (by rw [h1, h2])
  unfold getTileState
  rw [setTileState_tiles, setTileState_ncols]
  rw [List.getD_eq_getElem?_getD, List.getD_eq_getElem?_getD, List.getElem?_set_ne hidx]

theorem claim10_witness :
    getTileState (setTileState blinkerMid ALIVE 0 0) 1 1 = getTileState blinkerMid 1 1 :=
  (claim10_setState_frame blinkerMid ALIVE 0 0 1 1 (by decide) (by decide) (by decide)
    (by decide) (by decide)).1

end Conway
